import Mathlib

/-!
Verification of the treex tree-annotation / filtering / merging core against its
specification.

The repository's `src/` tree contains the test suite (`tests/test_treex.py`), one
loss implementation (`treex/losses/sparse_categorical_crossentropy.py`) and
examples, but not the core module file itself (the `Module` class with
`flatten`/`unflatten`, `filter`, `merge`, `init`, `train`/`eval`, the field
metadata registry and the ambient initialization context).  The core is
therefore modelled from the specification (spec.md sections 3 and 4); every
definition modelled this way carries a doc comment starting with
`Modelled from the spec:`.  The loss function is embedded directly from
`src/treex/losses/sparse_categorical_crossentropy.py`.

Conventions of the embedding:
- array payloads are abstracted to integers (`Val.arr`); plain non-array
  values (scalars, strings, ...) are `Val.scalar`;
- the Absence Sentinel (`tx.Nothing`) is `Val.nothing`;
- containers are ordered sequences (`Val.vlist`) and key-unique mappings
  (`Val.vdict`);
- a Module instance carries its class name, the two lifecycle flags, its Field
  Metadata Registry, and its attributes in assignment order;
- fallible operations return `Option` (`none` models a raised
  StructureMismatchError or similar).
-/

namespace Treex

/-- Modelled from the spec: the kind vocabulary of Field Descriptors
(Parameter, State, Rng, MetricLog, extensible with user-defined tags). -/
inductive Kind where
  | Parameter
  | State
  | Rng
  | MetricLog
  | Custom (tag : String)
deriving DecidableEq, Repr

/-- Modelled from the spec: a Field Descriptor records whether the field is a
structural node (participates in flatten/filter/merge) or an opaque static
value, and which semantic kinds it carries (possibly several). -/
structure FieldDesc where
  is_node : Bool
  kinds : List Kind
deriving DecidableEq, Repr

/-- Modelled from the spec: the Field Metadata Registry is a per-instance
mapping from attribute name to Field Descriptor. -/
abbrev Metadata : Type := List (String × FieldDesc)

mutual

/-- Values of the tree data model: leaves (array payloads, plain scalars, the
Absence Sentinel), containers, and Module instances.  A Module carries its
class name, the `flag_init`/`flag_train` lifecycle flags (spec 3, `Lifecycle
flags`, carried as static metadata, excluded from the leaf sequence), its Field
Metadata Registry, and its attributes in declaration-then-assignment order. -/
inductive Val where
  | arr (payload : Int)
  | scalar (payload : Int)
  | nothing
  | vlist (xs : ValList)
  | vdict (entries : EntryList)
  | module (className : String) (flag_init flag_train : Bool)
      (md : Metadata) (attrs : EntryList)

/-- An ordered sequence of values (models a Python list of tree parts). -/
inductive ValList where
  | nil
  | cons (hd : Val) (tl : ValList)

/-- A sequence of named values: the entries of a mapping container or the
attributes of a Module instance, in order. -/
inductive EntryList where
  | nil
  | cons (name : String) (v : Val) (tl : EntryList)

end

/-- Look an attribute name up in a Field Metadata Registry. -/
def lookupMeta : Metadata → String → Option FieldDesc
  | [], _ => none
  | (m, d) :: tl, n => if m = n then some d else lookupMeta tl n

mutual

/-- Modelled from the spec (4.1 `infer`): a value counts as node-like when it
is array-like, a nested Module, or a container holding a node-like value; the
Absence Sentinel is itself a tree node.  Plain scalars are static by default. -/
def isNodeLike : Val → Bool
  | .arr _ => true
  | .scalar _ => false
  | .nothing => true
  | .vlist xs => anyNodeLike xs
  | .vdict es => anyNodeLikeEntries es
  | .module _ _ _ _ _ => true

def anyNodeLike : ValList → Bool
  | .nil => false
  | .cons x xs => isNodeLike x || anyNodeLike xs

def anyNodeLikeEntries : EntryList → Bool
  | .nil => false
  | .cons _ v tl => isNodeLike v || anyNodeLikeEntries tl

end

/-- Modelled from the spec (4.1 `infer`): the default descriptor created for an
attribute with no explicit declaration: `is_node` by node-likeness of the
value, no kinds. -/
def inferDesc (v : Val) : FieldDesc := ⟨isNodeLike v, []⟩

/-- Resolve the descriptor governing attribute `n` with current value `v`: the
registry entry when declared, otherwise the automatic inference fallback (the
inference that runs at flatten time when `reconcile` was omitted). -/
def descOf (md : Metadata) (n : String) (v : Val) : FieldDesc :=
  (lookupMeta md n).getD (inferDesc v)

/-- The descriptor governing leaves that sit outside any Module field (e.g. the
entries of a plain dict passed to the top-level filter): a node with no
kinds. -/
def defaultDesc : FieldDesc := ⟨true, []⟩

/-- A filter predicate: a function of the governing Field Descriptor and the
current leaf value (a kind tag is the special case `fun d _ => k ∈ d.kinds`). -/
def Pred : Type := FieldDesc → Val → Bool

/-- Modelled from the spec (4.3): the predicate corresponding to a single kind
tag: it matches when the tag is in the governing descriptor's kind set. -/
def kindPred (k : Kind) : Pred := fun d _ => d.kinds.contains k

/-- The complement of a filter predicate. -/
def notPred (P : Pred) : Pred := fun d v => !(P d v)

mutual

/-- Modelled from the spec (4.3 Filter Engine): walk the tree under the
governing descriptor `d`; at each leaf keep the value when the predicate
matches, otherwise replace it by the Absence Sentinel; recurse structurally
through containers (with the same governing descriptor) and nested Modules
(where each field's own resolved descriptor takes over). -/
def filterVal (P : Pred) (d : FieldDesc) : Val → Val
  | .arr p => if P d (.arr p) then .arr p else .nothing
  | .scalar p => if P d (.scalar p) then .scalar p else .nothing
  | .nothing => .nothing
  | .vlist xs => .vlist (filterList P d xs)
  | .vdict es => .vdict (filterEntries P d es)
  | .module c i tr md attrs => .module c i tr md (filterAttrs P md attrs)

def filterList (P : Pred) (d : FieldDesc) : ValList → ValList
  | .nil => .nil
  | .cons x xs => .cons (filterVal P d x) (filterList P d xs)

def filterEntries (P : Pred) (d : FieldDesc) : EntryList → EntryList
  | .nil => .nil
  | .cons n v tl => .cons n (filterVal P d v) (filterEntries P d tl)

/-- Modelled from the spec (4.3): Module attributes are filtered under their
own resolved descriptor; static fields are never filtered (preserved
verbatim). -/
def filterAttrs (P : Pred) (md : Metadata) : EntryList → EntryList
  | .nil => .nil
  | .cons n v tl =>
    let d := descOf md n v
    .cons n (if d.is_node then filterVal P d v else v) (filterAttrs P md tl)

end

/-- Modelled from the spec (4.3): `filter(tree, P)` on an arbitrary tree; the
root is governed by the default descriptor. -/
def filterTop (P : Pred) (t : Val) : Val := filterVal P defaultDesc t

mutual

/-- Leaf positions in the sentinel-visible flattening order: the variant of the
flatten operation that treats the Absence Sentinel as an explicit visible leaf
(spec 3, Absence Sentinel), used by merge to detect filtered positions.  Static
fields contribute no leaf positions. -/
def nleaves : Val → List Val
  | .arr p => [.arr p]
  | .scalar p => [.scalar p]
  | .nothing => [.nothing]
  | .vlist xs => nleavesList xs
  | .vdict es => nleavesEntries es
  | .module _ _ _ md attrs => nleavesAttrs md attrs

def nleavesList : ValList → List Val
  | .nil => []
  | .cons x xs => nleaves x ++ nleavesList xs

def nleavesEntries : EntryList → List Val
  | .nil => []
  | .cons _ v tl => nleaves v ++ nleavesEntries tl

def nleavesAttrs (md : Metadata) : EntryList → List Val
  | .nil => []
  | .cons n v tl =>
    (if (descOf md n v).is_node then nleaves v else []) ++ nleavesAttrs md tl

end

/-- Whether a value may sit at a single leaf position (array payload, plain
scalar, or the Absence Sentinel). -/
def isLeafVal : Val → Bool
  | .arr _ => true
  | .scalar _ => true
  | .nothing => true
  | _ => false

mutual

/-- Modelled from the spec (4.4 Merge Engine): combine two structurally
compatible trees; at each leaf position the first (base-first) non-Absence
value wins; containers must have the same lengths and keys, Modules the same
class and field set with the same node/static classification, otherwise the
merge fails (StructureMismatchError, modelled as `none`).  The produced
instance takes its class, lifecycle flags, registry and static field values
from `base`. -/
def mergeVal : Val → Val → Option Val
  | .nothing, b => if isLeafVal b then some b else none
  | .arr p, b => if isLeafVal b then some (.arr p) else none
  | .scalar p, b => if isLeafVal b then some (.scalar p) else none
  | .vlist xs, .vlist ys =>
    (mergeList xs ys).map fun zs => Val.vlist zs
  | .vlist _, _ => none
  | .vdict es, .vdict fs =>
    (mergeEntries es fs).map fun gs => Val.vdict gs
  | .vdict _, _ => none
  | .module c i tr md attrs, .module c2 _ _ md2 attrs2 =>
    if c = c2 then
      (mergeAttrs md md2 attrs attrs2).map fun zs => Val.module c i tr md zs
    else none
  | .module _ _ _ _ _, _ => none

def mergeList : ValList → ValList → Option ValList
  | .nil, .nil => some .nil
  | .cons x xs, .cons y ys =>
    (mergeVal x y).bind fun z =>
      (mergeList xs ys).map fun zs => ValList.cons z zs
  | .nil, .cons _ _ => none
  | .cons _ _, .nil => none

def mergeEntries : EntryList → EntryList → Option EntryList
  | .nil, .nil => some .nil
  | .cons n v tl, .cons n2 v2 tl2 =>
    if n = n2 then
      (mergeVal v v2).bind fun z =>
        (mergeEntries tl tl2).map fun zs => EntryList.cons n z zs
    else none
  | .nil, .cons _ _ _ => none
  | .cons _ _ _, .nil => none

/-- Modelled from the spec (4.4): Module attributes are merged pairwise in
order; names and node/static classification must agree; node attributes merge
recursively, static attributes keep the base value. -/
def mergeAttrs (md md2 : Metadata) : EntryList → EntryList → Option EntryList
  | .nil, .nil => some .nil
  | .cons n v tl, .cons n2 v2 tl2 =>
    if n = n2 then
      let d := descOf md n v
      let d2 := descOf md2 n2 v2
      if d.is_node = d2.is_node then
        if d.is_node then
          (mergeVal v v2).bind fun z =>
            (mergeAttrs md md2 tl tl2).map fun zs => EntryList.cons n z zs
        else
          (mergeAttrs md md2 tl tl2).map fun zs => EntryList.cons n v zs
      else none
    else none
  | .nil, .cons _ _ _ => none
  | .cons _ _ _, .nil => none

end

/-- Modelled from the spec (4.4): merging more than two trees is a left fold of
the two-way rule. -/
def mergeMany (base : Val) (others : List Val) : Option Val :=
  others.foldl (fun acc o => acc.bind (fun a => mergeVal a o)) (some base)

/-- Modelled from the spec (4.4, `inplace`): the full merge call.  The first
component is the returned tree, the second is the contents of `base`'s storage
after the call: with `inplace = true` the base storage is mutated to hold the
merged tree (which is also returned); with `inplace = false` a fresh instance
is returned and `base` is left unmodified.  The `others` arguments are never
written to by either variant. -/
def mergeOp (inplace : Bool) (base : Val) (others : List Val) :
    Option (Val × Val) :=
  match mergeMany base others with
  | some r => some (r, if inplace then r else base)
  | none => none

mutual

/-- Modelled from the spec (4.2): the structure descriptor produced by
`flatten`: per node field enough shape information to invert the flattening
(field name, resolved descriptor, sub-structure), static field values stored
verbatim, and the instance's Field Metadata Registry carried inside the
descriptor so instance-specific dynamically added fields survive the round
trip.  The Absence Sentinel is an empty-leaf tree node (flattens to zero
leaves). -/
inductive TreeDef where
  | leafD
  | nothingD
  | listD (ds : TreeDefList)
  | dictD (ds : DictDefList)
  | moduleD (className : String) (flag_init flag_train : Bool)
      (md : Metadata) (fs : FieldDefList)

inductive TreeDefList where
  | nil
  | cons (d : TreeDef) (tl : TreeDefList)

inductive DictDefList where
  | nil
  | cons (name : String) (d : TreeDef) (tl : DictDefList)

inductive FieldDefList where
  | nil
  | consNode (name : String) (fd : FieldDesc) (d : TreeDef) (tl : FieldDefList)
  | consStatic (name : String) (fd : FieldDesc) (v : Val) (tl : FieldDefList)

end

mutual

/-- Modelled from the spec (4.2 Tree Protocol Adapter): `flatten` walks fields
in their fixed order; node fields contribute their leaves in order, static
fields are stored raw inside the structure descriptor and contribute no
leaves. -/
def flattenVal : Val → List Val × TreeDef
  | .arr p => ([.arr p], .leafD)
  | .scalar p => ([.scalar p], .leafD)
  | .nothing => ([], .nothingD)
  | .vlist xs =>
    let r := flattenList xs
    (r.1, .listD r.2)
  | .vdict es =>
    let r := flattenDict es
    (r.1, .dictD r.2)
  | .module c i tr md attrs =>
    let r := flattenFields md attrs
    (r.1, .moduleD c i tr md r.2)

def flattenList : ValList → List Val × TreeDefList
  | .nil => ([], .nil)
  | .cons x xs =>
    let a := flattenVal x
    let b := flattenList xs
    (a.1 ++ b.1, .cons a.2 b.2)

def flattenDict : EntryList → List Val × DictDefList
  | .nil => ([], .nil)
  | .cons n v tl =>
    let a := flattenVal v
    let b := flattenDict tl
    (a.1 ++ b.1, .cons n a.2 b.2)

/-- Modelled from the spec (4.2): each attribute is resolved against the
registry (with the automatic inference fallback at flatten time); node fields
recurse, static fields go raw into the descriptor. -/
def flattenFields (md : Metadata) : EntryList → List Val × FieldDefList
  | .nil => ([], .nil)
  | .cons n v tl =>
    let d := descOf md n v
    let b := flattenFields md tl
    if d.is_node then
      let a := flattenVal v
      (a.1 ++ b.1, .consNode n d a.2 b.2)
    else
      (b.1, .consStatic n d v b.2)

end

mutual

/-- Modelled from the spec (4.2): `unflatten` rebuilds an instance of the same
class, consuming leaves in the same deterministic order for node fields and
restoring static fields verbatim from the descriptor; returns the rebuilt
value together with the unconsumed leaves. -/
def unflattenVal : TreeDef → List Val → Option (Val × List Val)
  | .leafD, l :: rest => some (l, rest)
  | .leafD, [] => none
  | .nothingD, ls => some (.nothing, ls)
  | .listD ds, ls =>
    match unflattenList ds ls with
    | some (xs, rest) => some (.vlist xs, rest)
    | none => none
  | .dictD ds, ls =>
    match unflattenDict ds ls with
    | some (es, rest) => some (.vdict es, rest)
    | none => none
  | .moduleD c i tr md fs, ls =>
    match unflattenFields fs ls with
    | some (attrs, rest) => some (.module c i tr md attrs, rest)
    | none => none

def unflattenList : TreeDefList → List Val → Option (ValList × List Val)
  | .nil, ls => some (.nil, ls)
  | .cons d ds, ls =>
    match unflattenVal d ls with
    | some (x, rest) =>
      match unflattenList ds rest with
      | some (xs, rest2) => some (.cons x xs, rest2)
      | none => none
    | none => none

def unflattenDict : DictDefList → List Val → Option (EntryList × List Val)
  | .nil, ls => some (.nil, ls)
  | .cons n d ds, ls =>
    match unflattenVal d ls with
    | some (x, rest) =>
      match unflattenDict ds rest with
      | some (xs, rest2) => some (.cons n x xs, rest2)
      | none => none
    | none => none

def unflattenFields : FieldDefList → List Val → Option (EntryList × List Val)
  | .nil, ls => some (.nil, ls)
  | .consNode n _ d tl, ls =>
    match unflattenVal d ls with
    | some (v, rest) =>
      match unflattenFields tl rest with
      | some (vs, rest2) => some (.cons n v vs, rest2)
      | none => none
    | none => none
  | .consStatic n _ v tl, ls =>
    match unflattenFields tl ls with
    | some (vs, rest) => some (.cons n v vs, rest)
    | none => none

end

/-- Modelled from the spec (4.2): the top-level `unflatten(structure_descriptor,
ordered_leaves)`: all leaves must be consumed exactly. -/
def unflatten (d : TreeDef) (ls : List Val) : Option Val :=
  match unflattenVal d ls with
  | some (v, []) => some v
  | _ => none

/-- The field names recorded in a module structure descriptor (node and static
fields alike). -/
def defFieldNames : FieldDefList → List String
  | .nil => []
  | .consNode n _ _ tl => n :: defFieldNames tl
  | .consStatic n _ _ tl => n :: defFieldNames tl

/-- The attribute names of a Module instance, in order. -/
def attrNames : EntryList → List String
  | .nil => []
  | .cons n _ tl => n :: attrNames tl

/-- Modelled from the spec (4.1 `reconcile`): add a missing registry entry,
using the same inference rule as construction, for every attribute that has
none; never remove an existing entry, never change an existing entry's
classification. -/
def reconcileMeta (md : Metadata) : EntryList → Metadata
  | .nil => md
  | .cons n v tl =>
    reconcileMeta
      (if (lookupMeta md n).isSome then md else md ++ [(n, inferDesc v)]) tl

/-- Modelled from the spec (4.1): `reconcile` applied to a Module instance
(the repository exposes it as `check_metadata_updates`): reconcile the
registry against the current attributes. -/
def reconcileModule : Val → Val
  | .module c i tr md attrs => .module c i tr (reconcileMeta md attrs) attrs
  | v => v

/-- Modelled from the spec (4.5): the one-time setup hooks, given per class
name: the attributes a class's zero-argument setup hook assigns on its
instance (empty for classes without a hook). -/
abbrev SetupHooks : Type := String → EntryList

/-- Append one entry list to another. -/
def appendEntries : EntryList → EntryList → EntryList
  | .nil, es => es
  | .cons n v tl, es => .cons n v (appendEntries tl es)

mutual

/-- Modelled from the spec (4.5 `init`): tree-wide one-time deferred
initialization.  On an already-initialized Module the call is a no-op detected
via the `flag_init` flag (the setup logic is not re-run).  Otherwise nested
Modules reachable through node fields are initialized first, the instance's
own setup hook runs (assigning its attributes), `reconcile` gives the newly
assigned attributes Field Descriptors, and `flag_init` is set.  The second
component counts how many setup hooks ran during the call (the observable
side-effect counter of the spec's idempotence property). -/
def initVal (hooks : SetupHooks) : Val → Val × Nat
  | .module c i tr md attrs =>
    if i then (.module c i tr md attrs, 0)
    else
      let r := initAttrs hooks md attrs
      let attrs2 := appendEntries r.1 (hooks c)
      (.module c true tr (reconcileMeta md attrs2) attrs2, r.2 + 1)
  | .vlist xs =>
    let r := initValList hooks xs
    (.vlist r.1, r.2)
  | .vdict es =>
    let r := initEntries hooks es
    (.vdict r.1, r.2)
  | .arr p => (.arr p, 0)
  | .scalar p => (.scalar p, 0)
  | .nothing => (.nothing, 0)

def initValList (hooks : SetupHooks) : ValList → ValList × Nat
  | .nil => (.nil, 0)
  | .cons x xs =>
    let a := initVal hooks x
    let b := initValList hooks xs
    (.cons a.1 b.1, a.2 + b.2)

def initEntries (hooks : SetupHooks) : EntryList → EntryList × Nat
  | .nil => (.nil, 0)
  | .cons n v tl =>
    let a := initVal hooks v
    let b := initEntries hooks tl
    (.cons n a.1 b.1, a.2 + b.2)

/-- Modelled from the spec (4.5): initialization recurses through node fields
only; static fields are opaque metadata and are left untouched (matching
`test_static_annotation`, where a static sub-Module stays uninitialized). -/
def initAttrs (hooks : SetupHooks) (md : Metadata) : EntryList → EntryList × Nat
  | .nil => (.nil, 0)
  | .cons n v tl =>
    let b := initAttrs hooks md tl
    if (descOf md n v).is_node then
      let a := initVal hooks v
      (.cons n a.1 b.1, a.2 + b.2)
    else
      (.cons n v b.1, b.2)

end

mutual

/-- Modelled from the spec (4.5): `train()`/`eval()` set the `flag_train` flag
to `b` on the root and recurse into every nested Module so the flag is
consistent tree-wide; the in-place variant leaves the same tree in `self`'s
storage that the functional variant returns. -/
def trainMode (b : Bool) : Val → Val
  | .module c i _ md attrs => .module c i b md (trainModeEntries b attrs)
  | .vlist xs => .vlist (trainModeList b xs)
  | .vdict es => .vdict (trainModeEntries b es)
  | .arr p => .arr p
  | .scalar p => .scalar p
  | .nothing => .nothing

def trainModeList (b : Bool) : ValList → ValList
  | .nil => .nil
  | .cons x xs => .cons (trainMode b x) (trainModeList b xs)

def trainModeEntries (b : Bool) : EntryList → EntryList
  | .nil => .nil
  | .cons n v tl => .cons n (trainMode b v) (trainModeEntries b tl)

end

/-- Modelled from the spec: `train()` sets `training` to true tree-wide. -/
def trainFn (t : Val) : Val := trainMode true t

/-- Modelled from the spec: `eval()` sets `training` to false tree-wide. -/
def evalFn (t : Val) : Val := trainMode false t

mutual

/-- Whether every Module instance anywhere in the tree has its `flag_train`
flag equal to `b`. -/
def checkTraining (b : Bool) : Val → Bool
  | .module _ _ tr _ attrs => (tr == b) && checkTrainingEntries b attrs
  | .vlist xs => checkTrainingList b xs
  | .vdict es => checkTrainingEntries b es
  | .arr _ => true
  | .scalar _ => true
  | .nothing => true

def checkTrainingList (b : Bool) : ValList → Bool
  | .nil => true
  | .cons x xs => checkTraining b x && checkTrainingList b xs

def checkTrainingEntries (b : Bool) : EntryList → Bool
  | .nil => true
  | .cons _ v tl => checkTraining b v && checkTrainingEntries b tl

end

/-- The first-non-Absence choice at one leaf position (spec 4.4: the first
non-Absence value encountered wins). -/
def pickLeaf (x y : Val) : Val :=
  match x with
  | .nothing => y
  | _ => x

mutual

/-- The registry-coverage invariant of spec 3 (Field Metadata Registry):
every attribute present on the instance has a corresponding registry entry;
node attributes satisfy the invariant recursively (static attributes are
opaque metadata). -/
def wfVal : Val → Bool
  | .module _ _ _ md attrs => wfAttrs md attrs
  | .vlist xs => wfList xs
  | .vdict es => wfEntries es
  | .arr _ => true
  | .scalar _ => true
  | .nothing => true

def wfList : ValList → Bool
  | .nil => true
  | .cons x xs => wfVal x && wfList xs

def wfEntries : EntryList → Bool
  | .nil => true
  | .cons _ v tl => wfVal v && wfEntries tl

def wfAttrs (md : Metadata) : EntryList → Bool
  | .nil => true
  | .cons n v tl =>
    match lookupMeta md n with
    | some d => (if d.is_node then wfVal v else true) && wfAttrs md tl
    | none => false

end

mutual

/-- The shape of a tree in the sense of spec 4.3: class names, field names and
descriptors, container lengths and mapping keys, and static field values are
kept; the contents of node-field leaf positions are erased (all three leaf
forms collapse to the Absence Sentinel). -/
def shapeNode : Val → Val
  | .arr _ => .nothing
  | .scalar _ => .nothing
  | .nothing => .nothing
  | .vlist xs => .vlist (shapeList xs)
  | .vdict es => .vdict (shapeEntries es)
  | .module c i tr md attrs => .module c i tr md (shapeAttrs md attrs)

def shapeList : ValList → ValList
  | .nil => .nil
  | .cons x xs => .cons (shapeNode x) (shapeList xs)

def shapeEntries : EntryList → EntryList
  | .nil => .nil
  | .cons n v tl => .cons n (shapeNode v) (shapeEntries tl)

def shapeAttrs (md : Metadata) : EntryList → EntryList
  | .nil => .nil
  | .cons n v tl =>
    .cons n (if (descOf md n v).is_node then shapeNode v else v)
      (shapeAttrs md tl)

end

/-- Membership of a named entry in an entry list. -/
def EntryMem (n : String) (v : Val) : EntryList → Prop
  | .nil => False
  | .cons n2 v2 tl => (n = n2 ∧ v = v2) ∨ EntryMem n v tl

/-- Modelled from the spec (4.5): the ambient initialization context: whether
an initialization is in progress and the current splittable random key. -/
structure InitContext where
  initializing : Bool
  key : Option Nat
deriving DecidableEq, Repr

/-- The empty ambient context: no active initializing flag, no random key. -/
def emptyInitContext : InitContext := ⟨false, none⟩

/-- Modelled from the spec (4.5): the context established by a top-level
`init(seed, ...)` call: initializing, with a key source seeded from `seed`. -/
def initContextOf (seed : Nat) : InitContext := ⟨true, some seed⟩

/-- Modelled from the spec (4.5): the key-request primitive (`next_key`);
fails (ContextError, modelled as `none`) outside an active initialization
context. -/
def nextKey (c : InitContext) : Option Nat :=
  if c.initializing then c.key else none

/-- Modelled from the spec (4.5): a Module constructor call observed from the
ambient context: the ambient context is reset to empty at the start of the
call, so the constructor body runs under the empty context whatever context
`ctx` was left over; the surrounding context is restored when the call
returns. -/
def constructorCall {α : Type} (ctx : InitContext) (body : InitContext → α) :
    α × InitContext :=
  (body emptyInitContext, ctx)

/-- Embedded from `src/treex/losses/sparse_categorical_crossentropy.py`:
`jnp.take_along_axis(preds, target[..., None], axis=-1)[..., 0]` on one row;
out-of-bounds gather indices are clamped into range (JAX's default gather
mode). -/
def takeAt (row : List ℚ) (t : ℤ) : ℚ :=
  row.getD (max 0 (min t ((row.length : ℤ) - 1))).toNat 0

/-- Embedded from `src/treex/losses/sparse_categorical_crossentropy.py`, lines
18-30: the per-position loss before the bounds check (`from_logits` selects the
log-softmax branch, otherwise the selected probability is clamped to `EPSILON`
and logged).  Real arithmetic is modelled over ℚ; `jnp.log` and
`jax.nn.log_softmax` are external collaborators, abstracted as the parameters
`rlog` and `logSoftmax`; `types.EPSILON` (whose module is not part of the
sources) is the parameter `eps`. -/
def scceRaw (rlog : ℚ → ℚ) (logSoftmax : List ℚ → List ℚ) (eps : ℚ)
    (from_logits : Bool) (target : List ℤ) (preds : List (List ℚ)) : List ℚ :=
  if from_logits then
    List.zipWith (fun t row => -(takeAt (logSoftmax row) t)) target preds
  else
    List.zipWith (fun t row => -(rlog (max (takeAt row t) eps))) target preds

/-- Embedded from `src/treex/losses/sparse_categorical_crossentropy.py`, lines
11-37.  The NaN produced by the bounds check (lines 32-36) is the
distinguished marker `none` of `Option ℚ`; real values are `some q`.
`target` has rank 1 and `preds` rank 2, as in the repository's tests;
`n_classes = preds.shape[-1]`. -/
def sparse_categorical_crossentropy (rlog : ℚ → ℚ)
    (logSoftmax : List ℚ → List ℚ) (eps : ℚ) (from_logits check_bounds : Bool)
    (target : List ℤ) (preds : List (List ℚ)) : List (Option ℚ) :=
  let n_classes : ℤ := ((preds.headD []).length : ℤ)
  let loss1 : List (Option ℚ) :=
    (scceRaw rlog logSoftmax eps from_logits target preds).map some
  if check_bounds then
    let loss2 := List.zipWith (fun t l => if t < 0 then none else l)
      target loss1
    List.zipWith (fun t l => if n_classes ≤ t then none else l) target loss2
  else
    loss1

/-! ### Lifecycle lemmas: train/eval and idempotent init -/

mutual

theorem checkTraining_trainMode (b : Bool) :
    (t : Val) → checkTraining b (trainMode b t) = true
  | .module c i tr md attrs => by
    simp [trainMode, checkTraining, checkTrainingEntries_trainModeEntries b attrs]
  | .vlist xs => by
    simp [trainMode, checkTraining, checkTrainingList_trainModeList b xs]
  | .vdict es => by
    simp [trainMode, checkTraining, checkTrainingEntries_trainModeEntries b es]
  | .arr _ => rfl
  | .scalar _ => rfl
  | .nothing => rfl

theorem checkTrainingList_trainModeList (b : Bool) :
    (xs : ValList) → checkTrainingList b (trainModeList b xs) = true
  | .nil => rfl
  | .cons x xs => by
    simp [trainModeList, checkTrainingList, checkTraining_trainMode b x,
      checkTrainingList_trainModeList b xs]

theorem checkTrainingEntries_trainModeEntries (b : Bool) :
    (es : EntryList) → checkTrainingEntries b (trainModeEntries b es) = true
  | .nil => rfl
  | .cons n v tl => by
    simp [trainModeEntries, checkTrainingEntries, checkTraining_trainMode b v,
      checkTrainingEntries_trainModeEntries b tl]

end

mutual

theorem initVal_idem (hooks : SetupHooks) :
    (t : Val) → initVal hooks ((initVal hooks t).1) = ((initVal hooks t).1, 0)
  | .module c i tr md attrs => by
    cases i <;> simp [initVal]
  | .vlist xs => by
    simp [initVal, initValList_idem hooks xs]
  | .vdict es => by
    simp [initVal, initEntries_idem hooks es]
  | .arr _ => rfl
  | .scalar _ => rfl
  | .nothing => rfl

theorem initValList_idem (hooks : SetupHooks) :
    (xs : ValList) →
      initValList hooks ((initValList hooks xs).1) = ((initValList hooks xs).1, 0)
  | .nil => rfl
  | .cons x xs => by
    simp [initValList, initVal_idem hooks x, initValList_idem hooks xs]

theorem initEntries_idem (hooks : SetupHooks) :
    (es : EntryList) →
      initEntries hooks ((initEntries hooks es).1) = ((initEntries hooks es).1, 0)
  | .nil => rfl
  | .cons n v tl => by
    simp [initEntries, initVal_idem hooks v, initEntries_idem hooks tl]

end

/-! ### Filter preserves node-likeness (inference stability under filtering) -/

mutual

theorem isNodeLike_filterVal (P : Pred) (d : FieldDesc) :
    (v : Val) → isNodeLike v = true → isNodeLike (filterVal P d v) = true
  | .arr p, _ => by
    simp only [filterVal]
    split <;> simp [isNodeLike]
  | .scalar p, h => by simp [isNodeLike] at h
  | .nothing, _ => by simp [filterVal, isNodeLike]
  | .vlist xs, h => by
    simp only [isNodeLike] at h
    simp [filterVal, isNodeLike, anyNodeLike_filterList P d xs h]
  | .vdict es, h => by
    simp only [isNodeLike] at h
    simp [filterVal, isNodeLike, anyNodeLikeEntries_filterEntries P d es h]
  | .module c i tr md attrs, _ => by simp [filterVal, isNodeLike]

theorem anyNodeLike_filterList (P : Pred) (d : FieldDesc) :
    (xs : ValList) → anyNodeLike xs = true → anyNodeLike (filterList P d xs) = true
  | .nil, h => by simp [anyNodeLike] at h
  | .cons x xs, h => by
    simp only [anyNodeLike, Bool.or_eq_true] at h
    rcases h with h | h
    · simp [filterList, anyNodeLike, isNodeLike_filterVal P d x h]
    · simp [filterList, anyNodeLike, anyNodeLike_filterList P d xs h]

theorem anyNodeLikeEntries_filterEntries (P : Pred) (d : FieldDesc) :
    (es : EntryList) → anyNodeLikeEntries es = true →
      anyNodeLikeEntries (filterEntries P d es) = true
  | .nil, h => by simp [anyNodeLikeEntries] at h
  | .cons n v tl, h => by
    simp only [anyNodeLikeEntries, Bool.or_eq_true] at h
    rcases h with h | h
    · simp [filterEntries, anyNodeLikeEntries, isNodeLike_filterVal P d v h]
    · simp [filterEntries, anyNodeLikeEntries,
        anyNodeLikeEntries_filterEntries P d tl h]

end

/-! ### Merge of complementary filters reconstructs the tree -/

mutual

theorem mergeVal_filter_compl (P : Pred) (d : FieldDesc) :
    (v : Val) → mergeVal (filterVal P d v) (filterVal (notPred P) d v) = some v
  | .arr p => by
    by_cases h : P d (.arr p) <;>
      simp [filterVal, notPred, h, mergeVal, isLeafVal]
  | .scalar p => by
    by_cases h : P d (.scalar p) <;>
      simp [filterVal, notPred, h, mergeVal, isLeafVal]
  | .nothing => by simp [filterVal, mergeVal, isLeafVal]
  | .vlist xs => by
    simp [filterVal, mergeVal, mergeList_filter_compl P d xs]
  | .vdict es => by
    simp [filterVal, mergeVal, mergeEntries_filter_compl P d es]
  | .module c i tr md attrs => by
    simp [filterVal, mergeVal, mergeAttrs_filter_compl P md attrs]

theorem mergeList_filter_compl (P : Pred) (d : FieldDesc) :
    (xs : ValList) →
      mergeList (filterList P d xs) (filterList (notPred P) d xs) = some xs
  | .nil => by simp [filterList, mergeList]
  | .cons x xs => by
    simp [filterList, mergeList, mergeVal_filter_compl P d x,
      mergeList_filter_compl P d xs]

theorem mergeEntries_filter_compl (P : Pred) (d : FieldDesc) :
    (es : EntryList) →
      mergeEntries (filterEntries P d es) (filterEntries (notPred P) d es) =
        some es
  | .nil => by simp [filterEntries, mergeEntries]
  | .cons n v tl => by
    simp [filterEntries, mergeEntries, mergeVal_filter_compl P d v,
      mergeEntries_filter_compl P d tl]

theorem mergeAttrs_filter_compl (P : Pred) (md : Metadata) :
    (attrs : EntryList) →
      mergeAttrs md md (filterAttrs P md attrs)
        (filterAttrs (notPred P) md attrs) = some attrs
  | .nil => by simp [filterAttrs, mergeAttrs]
  | .cons n v tl => by
    have htl := mergeAttrs_filter_compl P md tl
    rcases hl : lookupMeta md n with _ | e
    · rcases hn : isNodeLike v with _ | _
      · have hd : (descOf md n v).is_node = false := by
          simp [descOf, hl, inferDesc, hn]
        simp [filterAttrs, hd, mergeAttrs, descOf, hl, inferDesc, hn, htl]
      · have hd : descOf md n v = ⟨true, []⟩ := by
          simp [descOf, hl, inferDesc, hn]
        have h1 : isNodeLike (filterVal P (descOf md n v) v) = true :=
          isNodeLike_filterVal P (descOf md n v) v hn
        have h2 : isNodeLike (filterVal (notPred P) (descOf md n v) v) = true :=
          isNodeLike_filterVal (notPred P) (descOf md n v) v hn
        simp only [filterAttrs, hd, if_pos rfl]
        simp only [hd] at h1 h2
        have h3 := mergeVal_filter_compl P (⟨true, []⟩ : FieldDesc) v
        simp [mergeAttrs, descOf, hl, inferDesc, h1, h2, h3, htl]
    · rcases he : e.is_node with _ | _
      · have hd : (descOf md n v).is_node = false := by simp [descOf, hl, he]
        simp [filterAttrs, hd, mergeAttrs, descOf, hl, he, htl]
      · have hd : (descOf md n v).is_node = true := by simp [descOf, hl, he]
        have hd2 : descOf md n v = e := by simp [descOf, hl]
        have h3 := mergeVal_filter_compl P e v
        simp [filterAttrs, hd, hd2, mergeAttrs, descOf, hl, he, htl, h3]

end

/-! ### Filtering preserves tree shape -/

mutual

theorem shapeNode_filterVal (P : Pred) (d : FieldDesc) :
    (v : Val) → shapeNode (filterVal P d v) = shapeNode v
  | .arr p => by
    simp only [filterVal]
    split <;> simp [shapeNode]
  | .scalar p => by
    simp only [filterVal]
    split <;> simp [shapeNode]
  | .nothing => by simp [filterVal]
  | .vlist xs => by simp [filterVal, shapeNode, shapeList_filterList P d xs]
  | .vdict es => by
    simp [filterVal, shapeNode, shapeEntries_filterEntries P d es]
  | .module c i tr md attrs => by
    simp [filterVal, shapeNode, shapeAttrs_filterAttrs P md attrs]

theorem shapeList_filterList (P : Pred) (d : FieldDesc) :
    (xs : ValList) → shapeList (filterList P d xs) = shapeList xs
  | .nil => rfl
  | .cons x xs => by
    simp [filterList, shapeList, shapeNode_filterVal P d x,
      shapeList_filterList P d xs]

theorem shapeEntries_filterEntries (P : Pred) (d : FieldDesc) :
    (es : EntryList) → shapeEntries (filterEntries P d es) = shapeEntries es
  | .nil => rfl
  | .cons n v tl => by
    simp [filterEntries, shapeEntries, shapeNode_filterVal P d v,
      shapeEntries_filterEntries P d tl]

theorem shapeAttrs_filterAttrs (P : Pred) (md : Metadata) :
    (attrs : EntryList) →
      shapeAttrs md (filterAttrs P md attrs) = shapeAttrs md attrs
  | .nil => rfl
  | .cons n v tl => by
    have htl := shapeAttrs_filterAttrs P md tl
    rcases hl : lookupMeta md n with _ | e
    · rcases hn : isNodeLike v with _ | _
      · have hd : (descOf md n v).is_node = false := by
          simp [descOf, hl, inferDesc, hn]
        simp [filterAttrs, hd, shapeAttrs, htl]
      · have hd : descOf md n v = ⟨true, []⟩ := by
          simp [descOf, hl, inferDesc, hn]
        have h1 : isNodeLike (filterVal P (⟨true, []⟩ : FieldDesc) v) = true :=
          hd ▸ isNodeLike_filterVal P (descOf md n v) v hn
        have h3 := shapeNode_filterVal P (⟨true, []⟩ : FieldDesc) v
        simp [filterAttrs, hd, shapeAttrs, descOf, hl, inferDesc, hn, h1, h3, htl]
    · rcases he : e.is_node with _ | _
      · have hd : (descOf md n v).is_node = false := by simp [descOf, hl, he]
        simp [filterAttrs, hd, shapeAttrs, htl]
      · have hd : descOf md n v = e := by simp [descOf, hl]
        have h3 := shapeNode_filterVal P e v
        simp [filterAttrs, hd, he, shapeAttrs, descOf, hl, h3, htl]

end

/-! ### Filtering preserves the number of leaf positions -/

mutual

theorem nleaves_length_filterVal (P : Pred) (d : FieldDesc) :
    (v : Val) → (nleaves (filterVal P d v)).length = (nleaves v).length
  | .arr p => by
    simp only [filterVal]
    split <;> simp [nleaves]
  | .scalar p => by
    simp only [filterVal]
    split <;> simp [nleaves]
  | .nothing => by simp [filterVal]
  | .vlist xs => by
    simp [filterVal, nleaves, nleavesList_length_filterList P d xs]
  | .vdict es => by
    simp [filterVal, nleaves, nleavesEntries_length_filterEntries P d es]
  | .module c i tr md attrs => by
    simp [filterVal, nleaves, nleavesAttrs_length_filterAttrs P md attrs]

theorem nleavesList_length_filterList (P : Pred) (d : FieldDesc) :
    (xs : ValList) →
      (nleavesList (filterList P d xs)).length = (nleavesList xs).length
  | .nil => rfl
  | .cons x xs => by
    simp [filterList, nleavesList, nleaves_length_filterVal P d x,
      nleavesList_length_filterList P d xs]

theorem nleavesEntries_length_filterEntries (P : Pred) (d : FieldDesc) :
    (es : EntryList) →
      (nleavesEntries (filterEntries P d es)).length = (nleavesEntries es).length
  | .nil => rfl
  | .cons n v tl => by
    simp [filterEntries, nleavesEntries, nleaves_length_filterVal P d v,
      nleavesEntries_length_filterEntries P d tl]

theorem nleavesAttrs_length_filterAttrs (P : Pred) (md : Metadata) :
    (attrs : EntryList) →
      (nleavesAttrs md (filterAttrs P md attrs)).length =
        (nleavesAttrs md attrs).length
  | .nil => rfl
  | .cons n v tl => by
    have htl := nleavesAttrs_length_filterAttrs P md tl
    rcases hl : lookupMeta md n with _ | e
    · rcases hn : isNodeLike v with _ | _
      · have hd : (descOf md n v).is_node = false := by
          simp [descOf, hl, inferDesc, hn]
        simp [filterAttrs, hd, nleavesAttrs, htl]
      · have hd : descOf md n v = ⟨true, []⟩ := by
          simp [descOf, hl, inferDesc, hn]
        have h1 : isNodeLike (filterVal P (⟨true, []⟩ : FieldDesc) v) = true :=
          hd ▸ isNodeLike_filterVal P (descOf md n v) v hn
        have h3 := nleaves_length_filterVal P (⟨true, []⟩ : FieldDesc) v
        simp [filterAttrs, hd, nleavesAttrs, descOf, hl, inferDesc, hn, h1, h3, htl]
    · rcases he : e.is_node with _ | _
      · have hd : (descOf md n v).is_node = false := by simp [descOf, hl, he]
        simp [filterAttrs, hd, nleavesAttrs, htl]
      · have hd : descOf md n v = e := by simp [descOf, hl]
        have h3 := nleaves_length_filterVal P e v
        simp [filterAttrs, hd, he, nleavesAttrs, descOf, hl, h3, htl]

end

/-! ### Leafwise characterization of merge: the first non-Absence value wins -/

mutual

theorem nleaves_mergeVal :
    (a : Val) → (b m : Val) → mergeVal a b = some m → wfVal a = true →
      nleaves m = List.zipWith pickLeaf (nleaves a) (nleaves b) ∧
      (nleaves a).length = (nleaves b).length
  | .nothing, b, m, h, _ => by
    cases b <;> simp [mergeVal, isLeafVal] at h <;>
      (subst h; simp [nleaves, pickLeaf])
  | .arr p, b, m, h, _ => by
    cases b <;> simp [mergeVal, isLeafVal] at h <;>
      (subst h; simp [nleaves, pickLeaf])
  | .scalar p, b, m, h, _ => by
    cases b <;> simp [mergeVal, isLeafVal] at h <;>
      (subst h; simp [nleaves, pickLeaf])
  | .vlist xs, b, m, h, hw => by
    cases b with
    | vlist ys =>
      simp only [mergeVal, Option.map_eq_some'] at h
      obtain ⟨zs, hm, rfl⟩ := h
      simp only [wfVal] at hw
      have hz := nleavesList_mergeList xs ys zs hm hw
      simpa [nleaves] using hz
    | arr p => simp [mergeVal] at h
    | scalar p => simp [mergeVal] at h
    | nothing => simp [mergeVal] at h
    | vdict fs => simp [mergeVal] at h
    | module c2 i2 tr2 md2 bs => simp [mergeVal] at h
  | .vdict es, b, m, h, hw => by
    cases b with
    | vdict fs =>
      simp only [mergeVal, Option.map_eq_some'] at h
      obtain ⟨gs, hm, rfl⟩ := h
      simp only [wfVal] at hw
      have hz := nleavesEntries_mergeEntries es fs gs hm hw
      simpa [nleaves] using hz
    | arr p => simp [mergeVal] at h
    | scalar p => simp [mergeVal] at h
    | nothing => simp [mergeVal] at h
    | vlist ys => simp [mergeVal] at h
    | module c2 i2 tr2 md2 bs => simp [mergeVal] at h
  | .module c i tr md as, b, m, h, hw => by
    cases b with
    | module c2 i2 tr2 md2 bs =>
      simp only [mergeVal] at h
      by_cases hc : c = c2
      case neg => rw [if_neg hc] at h; exact absurd h (by simp)
      rw [if_pos hc, Option.map_eq_some'] at h
      obtain ⟨cs, hm, rfl⟩ := h
      simp only [wfVal] at hw
      have hz := nleavesAttrs_mergeAttrs as md md2 bs cs hm hw
      simpa [nleaves] using hz
    | arr p => simp [mergeVal] at h
    | scalar p => simp [mergeVal] at h
    | nothing => simp [mergeVal] at h
    | vlist ys => simp [mergeVal] at h
    | vdict fs => simp [mergeVal] at h

theorem nleavesList_mergeList :
    (xs ys zs : ValList) → mergeList xs ys = some zs → wfList xs = true →
      nleavesList zs =
        List.zipWith pickLeaf (nleavesList xs) (nleavesList ys) ∧
      (nleavesList xs).length = (nleavesList ys).length
  | .nil, ys, zs, h, _ => by
    cases ys <;> simp [mergeList] at h
    subst h
    simp [nleavesList]
  | .cons x xs, ys, zs, h, hw => by
    cases ys with
    | nil => simp [mergeList] at h
    | cons y ys =>
      simp only [mergeList, Option.bind_eq_some, Option.map_eq_some'] at h
      obtain ⟨z, hmv, zs2, hml, rfl⟩ := h
      simp only [wfList, Bool.and_eq_true] at hw
      have hv := nleaves_mergeVal x y z hmv hw.1
      have hl := nleavesList_mergeList xs ys zs2 hml hw.2
      have hz := List.zipWith_append pickLeaf (nleaves x) (nleavesList xs)
        (nleaves y) (nleavesList ys) hv.2
      constructor
      · simp [nleavesList, hv.1, hl.1, hz]
      · simp [nleavesList, hv.2, hl.2]

theorem nleavesEntries_mergeEntries :
    (es fs gs : EntryList) → mergeEntries es fs = some gs →
      wfEntries es = true →
      nleavesEntries gs =
        List.zipWith pickLeaf (nleavesEntries es) (nleavesEntries fs) ∧
      (nleavesEntries es).length = (nleavesEntries fs).length
  | .nil, fs, gs, h, _ => by
    cases fs <;> simp [mergeEntries] at h
    subst h
    simp [nleavesEntries]
  | .cons n v tl, fs, gs, h, hw => by
    cases fs with
    | nil => simp [mergeEntries] at h
    | cons n2 v2 tl2 =>
      simp only [mergeEntries] at h
      by_cases hn : n = n2
      case neg => rw [if_neg hn] at h; exact absurd h (by simp)
      subst hn
      rw [if_pos rfl, Option.bind_eq_some] at h
      obtain ⟨z, hmv, h⟩ := h
      rw [Option.map_eq_some'] at h
      obtain ⟨gs2, hml, rfl⟩ := h
      simp only [wfEntries, Bool.and_eq_true] at hw
      have hv := nleaves_mergeVal v v2 z hmv hw.1
      have hl := nleavesEntries_mergeEntries tl tl2 gs2 hml hw.2
      have hz := List.zipWith_append pickLeaf (nleaves v) (nleavesEntries tl)
        (nleaves v2) (nleavesEntries tl2) hv.2
      constructor
      · simp [nleavesEntries, hv.1, hl.1, hz]
      · simp [nleavesEntries, hv.2, hl.2]

theorem nleavesAttrs_mergeAttrs :
    (as : EntryList) → (md md2 : Metadata) → (bs cs : EntryList) →
      mergeAttrs md md2 as bs = some cs → wfAttrs md as = true →
      nleavesAttrs md cs =
        List.zipWith pickLeaf (nleavesAttrs md as) (nleavesAttrs md2 bs) ∧
      (nleavesAttrs md as).length = (nleavesAttrs md2 bs).length
  | .nil, md, md2, bs, cs, h, _ => by
    cases bs <;> simp [mergeAttrs] at h
    subst h
    simp [nleavesAttrs]
  | .cons n v tl, md, md2, bs, cs, h, hw => by
    cases bs with
    | nil => simp [mergeAttrs] at h
    | cons n2 v2 tl2 =>
      simp only [mergeAttrs] at h
      by_cases hn : n = n2
      case neg => rw [if_neg hn] at h; exact absurd h (by simp)
      subst hn
      rw [if_pos rfl] at h
      rcases hl : lookupMeta md n with _ | e
      · rw [wfAttrs, hl] at hw
        exact absurd hw (by simp)
      rw [wfAttrs, hl, Bool.and_eq_true] at hw
      have hdv : descOf md n v = e := by simp [descOf, hl]
      rw [hdv] at h
      rcases he : e.is_node with _ | _ <;> rw [he] at h
      · rcases hd2 : (descOf md2 n v2).is_node with _ | _ <;> rw [hd2] at h
        case pos.some.false.true => exact absurd h (by simp)
        rw [if_pos rfl, if_neg (by simp), Option.map_eq_some'] at h
        obtain ⟨zs, hml, rfl⟩ := h
        have hr := nleavesAttrs_mergeAttrs tl md md2 tl2 zs hml hw.2
        constructor
        · simp [nleavesAttrs, hdv, he, hd2, hr.1]
        · simp [nleavesAttrs, hdv, he, hd2, hr.2]
      · rcases hd2 : (descOf md2 n v2).is_node with _ | _ <;> rw [hd2] at h
        case pos.some.true.false => exact absurd h (by simp)
        rw [if_pos rfl, if_pos rfl, Option.bind_eq_some] at h
        obtain ⟨z, hmv, h⟩ := h
        rw [Option.map_eq_some'] at h
        obtain ⟨zs, hml, rfl⟩ := h
        rw [he, if_pos rfl] at hw
        have hv := nleaves_mergeVal v v2 z hmv hw.1
        have hr := nleavesAttrs_mergeAttrs tl md md2 tl2 zs hml hw.2
        have hdz : descOf md n z = e := by simp [descOf, hl]
        have hz := List.zipWith_append pickLeaf (nleaves v) (nleavesAttrs md tl)
          (nleaves v2) (nleavesAttrs md2 tl2) hv.2
        constructor
        · simp [nleavesAttrs, hdv, hdz, he, hd2, hv.1, hr.1, hz]
        · simp [nleavesAttrs, hdv, he, hd2, hv.2, hr.2]

end

/-! ### Flatten / unflatten round trip -/

mutual

theorem unflatten_flattenVal :
    (v : Val) → (rest : List Val) →
      unflattenVal (flattenVal v).2 ((flattenVal v).1 ++ rest) = some (v, rest)
  | .arr p, rest => by simp [flattenVal, unflattenVal]
  | .scalar p, rest => by simp [flattenVal, unflattenVal]
  | .nothing, rest => by simp [flattenVal, unflattenVal]
  | .vlist xs, rest => by
    simp [flattenVal, unflattenVal, unflatten_flattenList xs rest]
  | .vdict es, rest => by
    simp [flattenVal, unflattenVal, unflatten_flattenDict es rest]
  | .module c i tr md attrs, rest => by
    simp [flattenVal, unflattenVal, unflatten_flattenFields attrs md rest]

theorem unflatten_flattenList :
    (xs : ValList) → (rest : List Val) →
      unflattenList (flattenList xs).2 ((flattenList xs).1 ++ rest) =
        some (xs, rest)
  | .nil, rest => by simp [flattenList, unflattenList]
  | .cons x xs, rest => by
    have h1 := unflatten_flattenVal x ((flattenList xs).1 ++ rest)
    have h2 := unflatten_flattenList xs rest
    simp [flattenList, unflattenList, List.append_assoc, h1, h2]

theorem unflatten_flattenDict :
    (es : EntryList) → (rest : List Val) →
      unflattenDict (flattenDict es).2 ((flattenDict es).1 ++ rest) =
        some (es, rest)
  | .nil, rest => by simp [flattenDict, unflattenDict]
  | .cons n v tl, rest => by
    have h1 := unflatten_flattenVal v ((flattenDict tl).1 ++ rest)
    have h2 := unflatten_flattenDict tl rest
    simp [flattenDict, unflattenDict, List.append_assoc, h1, h2]

theorem unflatten_flattenFields :
    (attrs : EntryList) → (md : Metadata) → (rest : List Val) →
      unflattenFields (flattenFields md attrs).2
          ((flattenFields md attrs).1 ++ rest) = some (attrs, rest)
  | .nil, md, rest => by simp [flattenFields, unflattenFields]
  | .cons n v tl, md, rest => by
    have h1 := unflatten_flattenVal v ((flattenFields md tl).1 ++ rest)
    have h2 := unflatten_flattenFields tl md rest
    rcases hd : (descOf md n v).is_node with _ | _ <;>
      simp [flattenFields, hd, unflattenFields, List.append_assoc, h1, h2]

end

/-! ### Registry reconciliation is additive -/

theorem lookupMeta_append (md l : Metadata) (n : String) :
    lookupMeta (md ++ l) n =
      match lookupMeta md n with
      | some e => some e
      | none => lookupMeta l n := by
  induction md with
  | nil => simp [lookupMeta]
  | cons p tl ih =>
    obtain ⟨m, d⟩ := p
    by_cases hm : m = n <;> simp [lookupMeta, hm, ih]

theorem lookupMeta_reconcile_some (n : String) (e : FieldDesc) :
    (attrs : EntryList) → (md : Metadata) → lookupMeta md n = some e →
      lookupMeta (reconcileMeta md attrs) n = some e
  | .nil, md, h => h
  | .cons n2 v tl, md, h => by
    rw [reconcileMeta]
    apply lookupMeta_reconcile_some n e tl
    by_cases hs : (lookupMeta md n2).isSome
    · simp [hs, h]
    · have hs2 : (lookupMeta md n2).isSome = false := by simpa using hs
      simp only [hs2, Bool.false_eq_true, if_false]
      rw [lookupMeta_append, h]

theorem entryMem_attrName (n : String) (v : Val) :
    (es : EntryList) → EntryMem n v es → n ∈ attrNames es
  | .cons n2 v2 tl, h => by
    rw [EntryMem] at h
    rcases h with ⟨rfl, _⟩ | h
    · simp [attrNames]
    · simp [attrNames, entryMem_attrName n v tl h]

theorem lookupMeta_reconcile_missing (n : String) (v : Val) :
    (attrs : EntryList) → (md : Metadata) → EntryMem n v attrs →
      (attrNames attrs).Nodup → lookupMeta md n = none →
      lookupMeta (reconcileMeta md attrs) n = some (inferDesc v)
  | .cons n2 v2 tl, md, hmem, hnd, hl => by
    rw [EntryMem] at hmem
    rw [attrNames, List.nodup_cons] at hnd
    rcases hmem with ⟨rfl, rfl⟩ | hmem
    · rw [reconcileMeta]
      have hs : (lookupMeta md n).isSome = false := by simp [hl]
      simp only [hs, Bool.false_eq_true, if_false]
      apply lookupMeta_reconcile_some n (inferDesc v) tl
      rw [lookupMeta_append, hl]
      simp [lookupMeta]
    · have hne : n2 ≠ n := by
        intro hcontra
        exact hnd.1 (hcontra ▸ entryMem_attrName n v tl hmem)
      rw [reconcileMeta]
      apply lookupMeta_reconcile_missing n v tl _ hmem hnd.2
      by_cases hs : (lookupMeta md n2).isSome
      · simp [hs, hl]
      · have hs2 : (lookupMeta md n2).isSome = false := by simpa using hs
        simp only [hs2, Bool.false_eq_true, if_false]
        rw [lookupMeta_append, hl]
        simp [lookupMeta, hne]

theorem flattenFields_congr :
    (attrs : EntryList) → (md md2 : Metadata) →
      (∀ n w, EntryMem n w attrs → descOf md2 n w = descOf md n w) →
      flattenFields md2 attrs = flattenFields md attrs
  | .nil, _, _, _ => rfl
  | .cons n v tl, md, md2, h => by
    have h1 : descOf md2 n v = descOf md n v :=
      h n v (by rw [EntryMem]; exact Or.inl ⟨rfl, rfl⟩)
    have h2 := flattenFields_congr tl md md2
      (fun n2 w hm => h n2 w (by rw [EntryMem]; exact Or.inr hm))
    simp [flattenFields, h1, h2]

theorem defFieldNames_flattenFields :
    (attrs : EntryList) → (md : Metadata) →
      defFieldNames (flattenFields md attrs).2 = attrNames attrs
  | .nil, md => rfl
  | .cons n v tl, md => by
    have h := defFieldNames_flattenFields tl md
    rcases hd : (descOf md n v).is_node with _ | _ <;>
      simp [flattenFields, hd, defFieldNames, attrNames, h]

theorem attrNames_appendEntries :
    (es : EntryList) → (fs : EntryList) →
      attrNames (appendEntries es fs) = attrNames es ++ attrNames fs
  | .nil, fs => by simp [appendEntries, attrNames]
  | .cons n v tl, fs => by
    simp [appendEntries, attrNames, attrNames_appendEntries tl fs]

theorem entryMem_appendEntries_right (n : String) (v : Val) :
    (es : EntryList) → (fs : EntryList) → EntryMem n v fs →
      EntryMem n v (appendEntries es fs)
  | .nil, fs, h => h
  | .cons n2 v2 tl, fs, h => by
    rw [appendEntries, EntryMem]
    exact Or.inr (entryMem_appendEntries_right n v tl fs h)

theorem entryMem_appendEntries_left (n : String) (v : Val) :
    (es : EntryList) → (fs : EntryList) → EntryMem n v es →
      EntryMem n v (appendEntries es fs)
  | .cons n2 v2 tl, fs, h => by
    rw [EntryMem] at h
    rw [appendEntries, EntryMem]
    rcases h with h | h
    · exact Or.inl h
    · exact Or.inr (entryMem_appendEntries_left n v tl fs h)

/-! ### Loss-function lemmas -/

theorem scceRaw_length (rlog : ℚ → ℚ) (lsm : List ℚ → List ℚ) (eps : ℚ)
    (fl : Bool) (target : List ℤ) (preds : List (List ℚ)) :
    (scceRaw rlog lsm eps fl target preds).length =
      min target.length preds.length := by
  cases fl <;> simp [scceRaw]

theorem zipWith_right_id {α β : Type} (g : α → β → β) :
    (ts : List α) → (ls : List β) → ls.length ≤ ts.length →
      (∀ t ∈ ts, ∀ l, g t l = l) → List.zipWith g ts ls = ls
  | _, [], _, _ => by simp
  | [], _ :: _, h, _ => by simp at h
  | t :: ts, l :: ls, h, hg => by
    simp only [List.zipWith]
    rw [hg t (by simp) l,
      zipWith_right_id g ts ls (by simpa using h)
        (fun t2 ht l2 => hg t2 (by simp [ht]) l2)]

/-! ### The claims -/

/-- Claim C1: merge is left-biased: for structurally compatible trees `a` and
`b` (with `a` satisfying the registry-coverage invariant of spec 3), at every
sentinel-visible leaf position where both `a` and `b` hold a non-Absence
value, `merge a b` holds `a`'s value at that position, never `b`'s. -/
theorem merge_left_bias (a b m : Val) (i : ℕ) (x y : Val)
    (hm : mergeVal a b = some m) (hwf : wfVal a = true)
    (hx : (nleaves a)[i]? = some x) (hxn : x ≠ Val.nothing)
    (hy : (nleaves b)[i]? = some y) (_hyn : y ≠ Val.nothing) :
    (nleaves m)[i]? = some x := by
  obtain ⟨heq, _⟩ := nleaves_mergeVal a b m hm hwf
  rw [heq, List.getElem?_zipWith', hx, hy]
  cases x with
  | nothing => exact absurd rfl hxn
  | arr p => simp [pickLeaf]
  | scalar p => simp [pickLeaf]
  | vlist xs => simp [pickLeaf]
  | vdict es => simp [pickLeaf]
  | module c i2 tr md attrs => simp [pickLeaf]

/-- Witness for claim C1 at a concrete input: both trees are single non-Absence
leaves, the merge succeeds, and the merged tree holds the base's value. -/
theorem merge_left_bias_witness :
    mergeVal (Val.arr 1) (Val.arr 2) = some (Val.arr 1) ∧
    (nleaves (Val.arr 1))[0]? = some (Val.arr 1) :=
  ⟨by simp [mergeVal, isLeafVal],
    merge_left_bias (Val.arr 1) (Val.arr 2) (Val.arr 1) 0 (Val.arr 1)
      (Val.arr 2) (by simp [mergeVal, isLeafVal]) (by simp [wfVal])
      (by simp [nleaves]) (by simp) (by simp [nleaves]) (by simp)⟩

/-- Claim C2: for every tree `t` and every filter predicate `P`, merging the
two complementary filtered copies reconstructs `t` exactly: the merge succeeds
and returns `t` itself, so every node-field leaf of the result equals the
corresponding leaf of `t` (in particular no position is left holding the
Absence Sentinel unless `t` itself held it there). -/
theorem merge_filter_reconstruct (P : Pred) (t : Val) :
    mergeVal (filterTop P t) (filterTop (notPred P) t) = some t :=
  mergeVal_filter_compl P defaultDesc t

/-- Claim C3: `unflatten` is an exact left inverse of `flatten`: rebuilding
from the structure descriptor and the leaf sequence returns the original tree,
with identical leaf values, identical static metadata (class name, lifecycle
flags, static field values) and identical Field Metadata Registry contents —
the registry is carried verbatim inside the structure descriptor, so
instance-specific dynamically added fields survive the round trip. -/
theorem unflatten_flatten_id (t : Val) :
    unflatten (flattenVal t).2 (flattenVal t).1 = some t := by
  have h := unflatten_flattenVal t []
  rw [List.append_nil] at h
  simp [unflatten, h]

/-- Claim C4: filtering preserves tree shape: the filtered tree has the same
class at every Module node, the same field names and descriptors, the same
static field values, and the same container lengths and mapping keys (the
shape function erases exactly the node-leaf contents), and the
sentinel-visible flattening of the filtered tree has exactly as many leaf
positions as that of the original. -/
theorem filter_shape_preservation (P : Pred) (t : Val) :
    shapeNode (filterTop P t) = shapeNode t ∧
    (nleaves (filterTop P t)).length = (nleaves t).length :=
  ⟨shapeNode_filterVal P defaultDesc t,
    nleaves_length_filterVal P defaultDesc t⟩

/-- Claim C5: `init` is idempotent: running `init` on the result of an `init`
call is a no-op returning the same tree with zero setup hooks run (the no-op
is detected via the `flag_init` flag), and on a fresh (uninitialized,
leaf-module) instance the one-time setup hook observable through the counter
runs exactly once — hence exactly once across both calls. -/
theorem init_idempotent (hooks : SetupHooks) (t : Val) (c : String)
    (tr : Bool) (md : Metadata) :
    initVal hooks ((initVal hooks t).1) = ((initVal hooks t).1, 0) ∧
    (initVal hooks (Val.module c false tr md .nil)).2 = 1 :=
  ⟨initVal_idem hooks t, by simp [initVal, initAttrs]⟩

/-- Claim C6: `eval()` sets `training = false` on the root and on every nested
Module instance, and `train()` sets `training = true` on the root and on every
nested Module instance; the in-place variant leaves the same tree in the
caller's storage that the functional variant returns, so the flag is
consistent tree-wide in both variants. -/
theorem train_eval_tree_wide (t : Val) :
    checkTraining false (evalFn t) = true ∧
    checkTraining true (trainFn t) = true :=
  ⟨checkTraining_trainMode false t, checkTraining_trainMode true t⟩

/-- Claim C7: the merge call's `inplace` contract, at the complementary-filter
inputs of the repository's tests: with `inplace = false` the call returns the
reconstructed tree while `base`'s storage still holds the filtered copy
(Absence Sentinels and all) after the call; with `inplace = true` `base`'s
storage is mutated to hold the merged tree, which is also the returned value.
The `others` arguments are never written to by either variant. -/
theorem merge_inplace_frame (P : Pred) (t : Val) :
    mergeOp false (filterTop P t) [filterTop (notPred P) t] =
      some (t, filterTop P t) ∧
    mergeOp true (filterTop P t) [filterTop (notPred P) t] = some (t, t) := by
  have h := mergeVal_filter_compl P defaultDesc t
  constructor <;> simp [mergeOp, mergeMany, filterTop, h]

/-- Claim C8: the Field Metadata Registry grows only additively: adding a new
attribute after construction and reconciling makes the new attribute appear in
the registry with its inferred descriptor, never removes or reclassifies an
existing entry, leaves the flatten output (leaf sequence and per-field
structure descriptor entries) unchanged compared to flattening without
reconciling — the automatic inference fallback at flatten time computes the
same descriptors — and the new attribute appears in the flatten output's field
list. -/
theorem reconcile_additive (md : Metadata)
    (attrs : EntryList) (name : String) (v : Val)
    (h1 : lookupMeta md name = none)
    (h2 : name ∉ attrNames attrs)
    (h3 : (attrNames attrs).Nodup) :
    lookupMeta
        (reconcileMeta md (appendEntries attrs (.cons name v .nil))) name =
      some (inferDesc v) ∧
    (∀ n d, lookupMeta md n = some d →
      lookupMeta
          (reconcileMeta md (appendEntries attrs (.cons name v .nil))) n =
        some d) ∧
    flattenFields (reconcileMeta md (appendEntries attrs (.cons name v .nil)))
        (appendEntries attrs (.cons name v .nil)) =
      flattenFields md (appendEntries attrs (.cons name v .nil)) ∧
    name ∈ defFieldNames
      (flattenFields md (appendEntries attrs (.cons name v .nil))).2 := by
  have hnd2 : (attrNames (appendEntries attrs (.cons name v .nil))).Nodup := by
    rw [attrNames_appendEntries]
    simp [attrNames, List.nodup_append, h2, h3]
  have hmem : EntryMem name v (appendEntries attrs (.cons name v .nil)) :=
    entryMem_appendEntries_right name v attrs _ (by rw [EntryMem]; simp)
  refine ⟨?_, ?_, ?_, ?_⟩
  · exact lookupMeta_reconcile_missing name v _ md hmem hnd2 h1
  · exact fun n d hd => lookupMeta_reconcile_some n d _ md hd
  · apply flattenFields_congr
    intro n w hw
    rcases hle : lookupMeta md n with _ | e
    · have := lookupMeta_reconcile_missing n w _ md hw hnd2 hle
      simp [descOf, hle, this]
    · have := lookupMeta_reconcile_some n e
        (appendEntries attrs (.cons name v .nil)) md hle
      simp [descOf, hle, this]
  · rw [defFieldNames_flattenFields, attrNames_appendEntries]
    simp [attrNames]

/-- Witness for claim C8 at a concrete input: a module declaring only `w`
gains a dynamically added `linear3` attribute; after reconciling, `linear3`
is registered with its inferred (node) descriptor, the `w` entry is untouched,
the flatten output is unchanged, and `linear3` appears among the flattened
field names. -/
theorem reconcile_additive_witness :
    lookupMeta
        (reconcileMeta [("w", ⟨true, [Kind.Parameter]⟩)]
          (appendEntries (.cons "w" (Val.arr 1) .nil)
            (.cons "linear3" (Val.arr 7) .nil))) "linear3" =
      some (inferDesc (Val.arr 7)) ∧
    (∀ n d, lookupMeta [("w", ⟨true, [Kind.Parameter]⟩)] n = some d →
      lookupMeta
          (reconcileMeta [("w", ⟨true, [Kind.Parameter]⟩)]
            (appendEntries (.cons "w" (Val.arr 1) .nil)
              (.cons "linear3" (Val.arr 7) .nil))) n = some d) ∧
    flattenFields
        (reconcileMeta [("w", ⟨true, [Kind.Parameter]⟩)]
          (appendEntries (.cons "w" (Val.arr 1) .nil)
            (.cons "linear3" (Val.arr 7) .nil)))
        (appendEntries (.cons "w" (Val.arr 1) .nil)
          (.cons "linear3" (Val.arr 7) .nil)) =
      flattenFields [("w", ⟨true, [Kind.Parameter]⟩)]
        (appendEntries (.cons "w" (Val.arr 1) .nil)
          (.cons "linear3" (Val.arr 7) .nil)) ∧
    "linear3" ∈ defFieldNames
      (flattenFields [("w", ⟨true, [Kind.Parameter]⟩)]
        (appendEntries (.cons "w" (Val.arr 1) .nil)
          (.cons "linear3" (Val.arr 7) .nil))).2 :=
  reconcile_additive [("w", ⟨true, [Kind.Parameter]⟩)]
    (.cons "w" (Val.arr 1) .nil) "linear3" (Val.arr 7)
    (by simp [lookupMeta]) (by simp [attrNames]) (by simp [attrNames])

/-- Claim C9: the ambient initialization context is reset to empty at the
start of every Module constructor call: inside the constructor body the
observed context has no active initializing flag and no random key (so the
key-request primitive fails there), and the value computed by the constructor
body is independent of whatever context a previous `init` left behind. -/
theorem constructor_context_reset {α : Type} (seed : ℕ) (ctx : InitContext)
    (body : InitContext → α) :
    (constructorCall ctx (fun c => c)).1 = emptyInitContext ∧
    (constructorCall ctx (fun c => nextKey c)).1 = none ∧
    (constructorCall (initContextOf seed) body).1 =
      (constructorCall emptyInitContext body).1 :=
  ⟨rfl, rfl, rfl⟩

/-- Claim C10: with `check_bounds = true` (the default) every output position
whose target entry is negative or at least `n_classes = preds.shape[-1]` is
set to NaN; with `check_bounds = false` no NaN substitution happens (every
output entry is a real value); and for an all-in-bounds target the two
settings return the same loss values. -/
theorem scce_check_bounds (rlog : ℚ → ℚ) (lsm : List ℚ → List ℚ) (eps : ℚ)
    (fl : Bool) (target : List ℤ) (preds : List (List ℚ)) :
    (∀ (i : ℕ) (t : ℤ), target[i]? = some t → i < preds.length →
      (t < 0 ∨ ((preds.headD []).length : ℤ) ≤ t) →
      (sparse_categorical_crossentropy rlog lsm eps fl true target preds)[i]? =
        some none) ∧
    (∀ x ∈ sparse_categorical_crossentropy rlog lsm eps fl false target preds,
      x.isSome) ∧
    ((∀ t ∈ target, 0 ≤ t ∧ t < ((preds.headD []).length : ℤ)) →
      sparse_categorical_crossentropy rlog lsm eps fl true target preds =
        sparse_categorical_crossentropy rlog lsm eps fl false target preds) := by
  have hlen : ((scceRaw rlog lsm eps fl target preds).map some).length ≤
      target.length := by
    rw [List.length_map, scceRaw_length]
    exact min_le_left _ _
  refine ⟨?_, ?_, ?_⟩
  · intro i t ht hip hoob
    have hit : i < target.length := (List.getElem?_eq_some.mp ht).1
    have hiraw : i < (scceRaw rlog lsm eps fl target preds).length := by
      rw [scceRaw_length]
      exact lt_min hit hip
    obtain ⟨r, hr⟩ :
        ∃ r, (scceRaw rlog lsm eps fl target preds)[i]? = some r := by
      rcases ho : (scceRaw rlog lsm eps fl target preds)[i]? with _ | r
      · exact absurd (List.getElem?_eq_none_iff.mp ho) (by omega)
      · exact ⟨r, rfl⟩
    simp only [sparse_categorical_crossentropy, eq_self_iff_true, if_true]
    rw [List.getElem?_zipWith', List.getElem?_zipWith', ht,
      List.getElem?_map, hr]
    rcases hoob with hoob | hoob <;>
      (simp only [Option.map_some', Option.some_bind]; rw [if_pos hoob]; try simp)
  · intro x hx
    simp only [sparse_categorical_crossentropy, Bool.false_eq_true,
      if_false] at hx
    obtain ⟨r, _, rfl⟩ := List.mem_map.mp hx
    rfl
  · intro hin
    simp only [sparse_categorical_crossentropy, eq_self_iff_true, if_true,
      Bool.false_eq_true, if_false]
    have hlen2 : (List.zipWith
        (fun (t : ℤ) (l : Option ℚ) => if t < 0 then none else l) target
        ((scceRaw rlog lsm eps fl target preds).map some)).length ≤
        target.length := by
      rw [List.length_zipWith]
      exact min_le_left _ _
    rw [zipWith_right_id _ target _ hlen2
        (fun t ht l => by
          have h2 := (hin t ht).2
          exact if_neg (by omega)),
      zipWith_right_id _ target _ hlen
        (fun t ht l => by
          have h1 := (hin t ht).1
          exact if_neg (by omega))]

/-- Witness for claim C10 at the concrete inputs of
`test_scce_out_of_bounds` (shrunk): with `check_bounds = true` the position
whose target entry is `-1` (resp. `2 = n_classes`) is NaN; with
`check_bounds = false` every entry is a real value; and on an in-bounds
target the two settings agree. -/
theorem scce_check_bounds_witness :
    (sparse_categorical_crossentropy (fun _ => 0) id 1 false true
        [0, 0, -1, 2] [[0, 0], [0, 0], [0, 0], [0, 0]])[2]? = some none ∧
    (sparse_categorical_crossentropy (fun _ => 0) id 1 false true
        [0, 0, -1, 2] [[0, 0], [0, 0], [0, 0], [0, 0]])[3]? = some none ∧
    (∀ x ∈ sparse_categorical_crossentropy (fun _ => 0) id 1 false false
        [0, 0, -1, 2] [[0, 0], [0, 0], [0, 0], [0, 0]], x.isSome) ∧
    sparse_categorical_crossentropy (fun _ => 0) id 1 false true
        [0, 1] [[0, 0], [0, 0]] =
      sparse_categorical_crossentropy (fun _ => 0) id 1 false false
        [0, 1] [[0, 0], [0, 0]] :=
  ⟨(scce_check_bounds (fun _ => 0) id 1 false [0, 0, -1, 2]
      [[0, 0], [0, 0], [0, 0], [0, 0]]).1 2 (-1) (by simp) (by simp)
      (Or.inl (by decide)),
    (scce_check_bounds (fun _ => 0) id 1 false [0, 0, -1, 2]
      [[0, 0], [0, 0], [0, 0], [0, 0]]).1 3 2 (by simp) (by simp)
      (Or.inr (by simp)),
    (scce_check_bounds (fun _ => 0) id 1 false [0, 0, -1, 2]
      [[0, 0], [0, 0], [0, 0], [0, 0]]).2.1,
    (scce_check_bounds (fun _ => 0) id 1 false [0, 1]
      [[0, 0], [0, 0]]).2.2 (by decide)⟩

end Treex
